import Mathlib

/-!
Shallow embedding of `delaunator-rs` (`src/lib.rs`), a Rust port of the
Delaunator Delaunay-triangulation algorithm, together with proofs about it.

Modelling conventions:

* `f64` coordinates are modelled by `ℚ` (exact arithmetic).
* The generic index type `T` (instantiated at `u32` by the public
  `triangulate`) is modelled by `ℕ` with the sentinel `EMPTY = u32::MAX`;
  the index arithmetic of `next_halfedge`/`prev_halfedge` carries an
  explicit `% 2^32` on the additions, which is where `u32` wrap-around
  could occur.
* The one place where `f64` arithmetic is partial — the division by
  `dx * ey - dy * ex` in `Point::circumdelta`, which for a zero denominator
  produces `inf`/`NaN` values that every subsequent `<` comparison
  rejects — is modelled with `Option`: `none` plays the role of the
  never-accepted non-finite result.
* Rust's panicking slice indexing is modelled by `getD` with a default;
  all reachable reads in the proved statements are in bounds.
* Loops whose termination the source does not establish structurally
  (`legalize`, the hull walks) take an explicit fuel argument; exhausting
  the fuel stops the loop the way the corresponding `break` would.
-/

namespace Delaunator

/-- Embeds `EMPTY`, i.e. `T::max_value()` for `T = u32` (the `empty` field of
`Triangulation`); the reserved sentinel meaning "no half-edge". -/
def EMPTY : ℕ := 4294967295

/-- The modulus `2^32` of `u32` arithmetic. -/
def U32MOD : ℕ := 4294967296

/-- Embeds `EPSILON = f64::EPSILON * 2.0 = 2^-51` (`src/lib.rs:30`). -/
def EPSILON : ℚ := 1 / 2251799813685248

/-- Embeds `Point` (`src/lib.rs:34`): a 2D coordinate pair, `f64` modelled by `ℚ`. -/
@[ext]
structure Point where
  x : ℚ
  y : ℚ
deriving DecidableEq, Repr

/-- Default point returned for out-of-range reads (where Rust would panic). -/
def dP : Point := ⟨0, 0⟩

/-- Embeds `Point::dist2` (`src/lib.rs:46`): squared Euclidean distance. -/
def Point.dist2 (p q : Point) : ℚ :=
  (p.x - q.x) * (p.x - q.x) + (p.y - q.y) * (p.y - q.y)

/-- Embeds `Point::orient` (`src/lib.rs:52`):
`(q.y - self.y) * (r.x - q.x) - (q.x - self.x) * (r.y - q.y) < 0.0`. -/
def Point.orient (p q r : Point) : Bool :=
  decide ((q.y - p.y) * (r.x - q.x) - (q.x - p.x) * (r.y - q.y) < 0)

/-- Embeds `Point::circumdelta` (`src/lib.rs:56`).  The source computes
`d = 0.5 / (dx * ey - dy * ex)` in `f64`; a zero denominator produces an
`inf`/`NaN` offset whose squared norm no later `<` comparison accepts.
The embedding returns `none` in exactly that case. -/
def Point.circumdelta (a b c : Point) : Option (ℚ × ℚ) :=
  let dx := b.x - a.x
  let dy := b.y - a.y
  let ex := c.x - a.x
  let ey := c.y - a.y
  if dx * ey - dy * ex = 0 then none
  else
    let bl := dx * dx + dy * dy
    let cl := ex * ex + ey * ey
    let d := (1 / 2) / (dx * ey - dy * ex)
    some ((ey * bl - dy * cl) * d, (dx * cl - ex * bl) * d)

/-- Embeds `Point::circumradius2` (`src/lib.rs:71`): squared circumradius, `none`
standing for the non-finite value produced on a collinear triple. -/
def Point.circumradius2 (a b c : Point) : Option ℚ :=
  (a.circumdelta b c).map fun d => d.1 * d.1 + d.2 * d.2

/-- Embeds `Point::circumcenter` (`src/lib.rs:76`). -/
def Point.circumcenter (a b c : Point) : Option Point :=
  (a.circumdelta b c).map fun d => ⟨a.x + d.1, a.y + d.2⟩

/-- Embeds `Point::in_circle` (`src/lib.rs:84`): the 3×3 determinant sign test. -/
def Point.in_circle (a b c p : Point) : Bool :=
  let dx := a.x - p.x
  let dy := a.y - p.y
  let ex := b.x - p.x
  let ey := b.y - p.y
  let fx := c.x - p.x
  let fy := c.y - p.y
  let ap := dx * dx + dy * dy
  let bp := ex * ex + ey * ey
  let cp := fx * fx + fy * fy
  decide (dx * (ey * cp - bp * fy) - dy * (ex * cp - bp * fx) + ap * (ex * fy - ey * fx) < 0)

/-- Embeds `Point::nearly_equals` (`src/lib.rs:99`). -/
def Point.nearly_equals (p q : Point) : Bool :=
  decide (|p.x - q.x| ≤ EPSILON) && decide (|p.y - q.y| ≤ EPSILON)

/-- The standard signed-area cross product `(q - p) × (r - p)`.  In the
library's screen-coordinate convention (y axis pointing down), a positive
value means the sequence `p → q → r` turns clockwise.  This is the
spec-side notion that `Point.orient` is compared against. -/
def crossProduct (p q r : Point) : ℚ :=
  (q.x - p.x) * (r.y - p.y) - (q.y - p.y) * (r.x - p.x)

/-- All points of the list are equal ("all points are coincident"). -/
def AllCoincident (pts : List Point) : Prop :=
  ∀ p ∈ pts, ∀ q ∈ pts, p = q

/-- Every triple of points of the list has zero cross product
("all points are collinear"). -/
def AllCollinear (pts : List Point) : Prop :=
  ∀ p ∈ pts, ∀ q ∈ pts, ∀ r ∈ pts, crossProduct p q r = 0

/-- Embeds `Triangulation::next_halfedge` (`src/lib.rs:247`):
`if i % 3 == 2 { i - 2 } else { i + 1 }` in `u32` arithmetic. -/
def Triangulation.next_halfedge (i : ℕ) : ℕ :=
  if i % 3 = 2 then i - 2 else (i + 1) % U32MOD

/-- Embeds `Triangulation::prev_halfedge` (`src/lib.rs:256`):
`if i % 3 == 0 { i + 2 } else { i - 1 }` in `u32` arithmetic. -/
def Triangulation.prev_halfedge (i : ℕ) : ℕ :=
  if i % 3 = 0 then (i + 2) % U32MOD else i - 1

/-- Comparison `d < min_dist` against a possibly-infinite running minimum
(`none` models the initial `f64::INFINITY`). -/
def minLtB (d : ℚ) (m : Option ℚ) : Bool :=
  match m with
  | none => true
  | some mv => decide (d < mv)

/-- The loop body of `find_closest_point` (`src/lib.rs:514`): fold over the
enumerated points, keeping the index `k` of the current minimum and the
current minimum `min_dist` (`none` = `f64::INFINITY`). -/
def fcpLoop (p0 : Point) : List (ℕ × Point) → ℕ → Option ℚ → ℕ × Option ℚ
  | [], k, m => (k, m)
  | (i, p) :: rest, k, m =>
    let d := p0.dist2 p
    if decide (0 < d) && minLtB d m then fcpLoop p0 rest i (some d)
    else fcpLoop p0 rest k m

/-- Embeds `find_closest_point` (`src/lib.rs:514`): index of the point strictly
closest to `p0` among points at positive distance, `none` if there is
none. -/
def find_closest_point (pts : List Point) (p0 : Point) : Option ℕ :=
  match fcpLoop p0 pts.enum 0 none with
  | (_, none) => none
  | (k, some _) => some k

/-- The third-point loop of `find_seed_triangle` (`src/lib.rs:544`):
skip `i0` and `i1`, keep the index minimizing `circumradius2 (p0, p1, p)`;
a `none` radius (collinear triple, `inf`/`NaN` in `f64`) never improves
the minimum. -/
def seedLoop (p0 p1 : Point) (i0 i1 : ℕ) :
    List (ℕ × Point) → ℕ → Option ℚ → ℕ × Option ℚ
  | [], i2, m => (i2, m)
  | (i, p) :: rest, i2, m =>
    if i = i0 ∨ i = i1 then seedLoop p0 p1 i0 i1 rest i2 m
    else
      match p0.circumradius2 p1 p with
      | none => seedLoop p0 p1 i0 i1 rest i2 m
      | some r =>
        if minLtB r m then seedLoop p0 p1 i0 i1 rest i (some r)
        else seedLoop p0 p1 i0 i1 rest i2 m

/-- Fold step for the bounding-box minimum (`f64::INFINITY` start modelled
by `none`). -/
def foldMin (acc : Option ℚ) (v : ℚ) : Option ℚ :=
  match acc with
  | none => some v
  | some a => some (min a v)

/-- Fold step for the bounding-box maximum. -/
def foldMax (acc : Option ℚ) (v : ℚ) : Option ℚ :=
  match acc with
  | none => some v
  | some a => some (max a v)

/-- Embeds `calc_bbox_center` (`src/lib.rs:503`).  On an empty input the `f64`
code yields `NaN` coordinates; the embedding yields `(0, 0)` — in both
cases the subsequent `find_closest_point` on no points returns `None`, so
the value is never used. -/
def calc_bbox_center (pts : List Point) : Point :=
  let min_x := (pts.foldl (fun a p => foldMin a p.x) none).getD 0
  let min_y := (pts.foldl (fun a p => foldMin a p.y) none).getD 0
  let max_x := (pts.foldl (fun a p => foldMax a p.x) none).getD 0
  let max_y := (pts.foldl (fun a p => foldMax a p.y) none).getD 0
  ⟨(min_x + max_x) / 2, (min_y + max_y) / 2⟩

/-- Embeds `find_seed_triangle` (`src/lib.rs:531`): pick `i0` nearest the bbox
center, `i1` nearest `i0`, `i2` minimizing the circumradius with the first
two, and order the triple by the `orient` test. -/
def find_seed_triangle (pts : List Point) : Option (ℕ × ℕ × ℕ) :=
  let bbox_center := calc_bbox_center pts
  match find_closest_point pts bbox_center with
  | none => none
  | some i0 =>
    let p0 := pts.getD i0 dP
    match find_closest_point pts p0 with
    | none => none
    | some i1 =>
      let p1 := pts.getD i1 dP
      match seedLoop p0 p1 i0 i1 pts.enum 0 none with
      | (_, none) => none
      | (i2, some _) =>
        if p0.orient p1 (pts.getD i2 dP) then some (i0, i2, i1)
        else some (i0, i1, i2)

/-- Embeds `Hull` (`src/lib.rs:368`): the advancing convex-hull boundary.
`prev`/`next`/`out` are indexed by point id, `hash` by angular bucket. -/
structure Hull where
  prev : Array ℕ
  next : Array ℕ
  out : Array ℕ
  hash : Array ℕ
  start : ℕ
  center : Point
deriving Repr

/-- Embeds `Hull::out` getter (`src/lib.rs:424`). -/
def Hull.outOf (h : Hull) (point_id : ℕ) : ℕ := h.out.getD point_id 0

/-- Embeds `Hull::set_out` (`src/lib.rs:427`). -/
def Hull.set_out (h : Hull) (point_id halfedge_id : ℕ) : Hull :=
  { h with out := h.out.setD point_id halfedge_id }

/-- Embeds `Hull::prev` getter (`src/lib.rs:431`). -/
def Hull.prevOf (h : Hull) (point_id : ℕ) : ℕ := h.prev.getD point_id 0

/-- Embeds `Hull::set_prev` (`src/lib.rs:434`). -/
def Hull.set_prev (h : Hull) (point_id prev_point_id : ℕ) : Hull :=
  { h with prev := h.prev.setD point_id prev_point_id }

/-- Embeds `Hull::next` getter (`src/lib.rs:438`). -/
def Hull.nextOf (h : Hull) (point_id : ℕ) : ℕ := h.next.getD point_id 0

/-- Embeds `Hull::set_next` (`src/lib.rs:441`). -/
def Hull.set_next (h : Hull) (point_id next_point_id : ℕ) : Hull :=
  { h with next := h.next.setD point_id next_point_id }

/-- Embeds `Hull::remove` (`src/lib.rs:445`): mark a hull point removed by setting
its `next` to `EMPTY`. -/
def Hull.remove (h : Hull) (point_id : ℕ) : Hull :=
  h.set_next point_id EMPTY

/-- Embeds `Hull::hash_key` (`src/lib.rs:450`): pseudo-angle bucket of the
direction of `p` from the hash center.  (For `p` exactly at the center the
`f64` code computes `0/0 = NaN` and the final cast maps it to bucket `0`;
the `ℚ` model's `0/0 = 0` lands in bucket `⌊len/4⌋` instead — the hash is
only a search seed, and none of the proved statements depend on this
corner.) -/
def Hull.hash_key (h : Hull) (p : Point) : ℕ :=
  let dx := p.x - h.center.x
  let dy := p.y - h.center.y
  let pp := dx / (|dx| + |dy|)
  let a : ℚ := (if 0 < dy then 3 - pp else 1 + pp) / 4
  let len := h.hash.size
  (Int.toNat ⌊(len : ℚ) * a⌋) % len

/-- Embeds `Hull::hash_edge` (`src/lib.rs:461`). -/
def Hull.hash_edge (h : Hull) (p : Point) (i : ℕ) : Hull :=
  { h with hash := h.hash.setD (h.hash_key p) i }

/-- Embeds `Hull::new` (`src/lib.rs:391`): 3-point circular list over the seed
triangle, hash table of size `⌊√n⌋` seeded with the three points.
(`(n as f64).sqrt() as usize` is `Nat.sqrt n` for exactly representable
sizes.) -/
def Hull.new (n : ℕ) (center : Point) (i0 i1 i2 : ℕ) (pts : List Point) : Hull :=
  let hash_len := Nat.sqrt n
  let h : Hull :=
    { prev := Array.mkArray n 0
      next := Array.mkArray n 0
      out := Array.mkArray n 0
      hash := Array.mkArray hash_len EMPTY
      start := i0
      center := center }
  let h := h.set_next i0 i1
  let h := h.set_prev i2 i1
  let h := h.set_next i1 i2
  let h := h.set_prev i0 i2
  let h := h.set_next i2 i0
  let h := h.set_prev i1 i0
  let h := h.set_out i0 0
  let h := h.set_out i1 1
  let h := h.set_out i2 2
  let h := h.hash_edge (pts.getD i0 dP) i0
  let h := h.hash_edge (pts.getD i1 dP) i1
  let h := h.hash_edge (pts.getD i2 dP) i2
  h

/-- The bucket-probing loop of `Hull::find_visible_edge` (`src/lib.rs:470`):
`start` is reassigned from each probed bucket and the loop breaks at the
first hashed point that is live (not `EMPTY`, not removed). -/
def probeLoop (h : Hull) (key len : ℕ) : List ℕ → ℕ → ℕ
  | [], start => start
  | j :: rest, _ =>
    let s := h.hash.getD ((key + j) % len) 0
    if s ≠ EMPTY ∧ h.nextOf s ≠ EMPTY then s
    else probeLoop h key len rest s

/-- The forward walk of `Hull::find_visible_edge` (`src/lib.rs:479`),
instrumented with the number of `e = next(e)` steps taken as the third
component.  Returns `(EMPTY, false, _)` when the walk comes back to its
start (or, in the model only, when the fuel runs out). -/
def visWalk (pts : List Point) (h : Hull) (p : Point) (start : ℕ) :
    ℕ → ℕ → ℕ → ℕ × Bool × ℕ
  | 0, _, steps => (EMPTY, false, steps)
  | fuel + 1, e, steps =>
    if p.orient (pts.getD e dP) (pts.getD (h.nextOf e) dP) then
      (e, decide (e = start), steps)
    else
      let e2 := h.nextOf e
      if e2 = start then (EMPTY, false, steps + 1)
      else visWalk pts h p start fuel e2 (steps + 1)

/-- Embeds `Hull::find_visible_edge` (`src/lib.rs:466`) with the walk's step count
as an extra third component. -/
def Hull.find_visible_edge_core (h : Hull) (p : Point) (pts : List Point) :
    ℕ × Bool × ℕ :=
  let key := h.hash_key p
  let len := h.hash.size
  let s0 := probeLoop h key len (List.range len) 0
  let start := h.prevOf s0
  visWalk pts h p start (h.next.size + 1) start 0

/-- Embeds `Hull::find_visible_edge` (`src/lib.rs:466`): the pair the source
returns. -/
def Hull.find_visible_edge (h : Hull) (p : Point) (pts : List Point) : ℕ × Bool :=
  let r := h.find_visible_edge_core p pts
  (r.1, r.2.1)

/-- Number of forward steps taken by the walk of `find_visible_edge`. -/
def Hull.fve_steps (h : Hull) (p : Point) (pts : List Point) : ℕ :=
  (h.find_visible_edge_core p pts).2.2

/-- The loop of `Hull::fix_halfedge` (`src/lib.rs:488`). -/
def fixLoop (old_id new_id first : ℕ) : ℕ → Hull → ℕ → Hull
  | 0, h, _ => h
  | fuel + 1, h, e =>
    if h.outOf e = old_id then h.set_out e new_id
    else
      let e2 := h.nextOf e
      if e2 = first then h
      else fixLoop old_id new_id first fuel h e2

/-- Embeds `Hull::fix_halfedge` (`src/lib.rs:488`): rewalk the hull to replace a
stale `out` reference. -/
def Hull.fix_halfedge (h : Hull) (old_id new_id : ℕ) : Hull :=
  fixLoop old_id new_id h.start (h.next.size + 1) h h.start

/-- Embeds `Triangulation` (`src/lib.rs:105`): the triangle/half-edge arrays and
the final hull boundary.  `empty` is the global `EMPTY`. -/
structure Triangulation where
  triangles : Array ℕ
  halfedges : Array ℕ
  hull : List ℕ
deriving Repr

/-- Embeds `Triangulation::len` (`src/lib.rs:242`): number of triangles. -/
def Triangulation.len (t : Triangulation) : ℕ := t.triangles.size / 3

/-- Embeds `Triangulation::twin` (`src/lib.rs:264`). -/
def Triangulation.twin (t : Triangulation) (halfedge_id : ℕ) : ℕ :=
  t.halfedges.getD halfedge_id 0

/-- Embeds `Triangulation::set_twin` (`src/lib.rs:267`): guarded by
`halfedge_id != empty`. -/
def Triangulation.set_twin (t : Triangulation) (halfedge_id twin_id : ℕ) : Triangulation :=
  if halfedge_id ≠ EMPTY then { t with halfedges := t.halfedges.setD halfedge_id twin_id }
  else t

/-- Embeds `Triangulation::origin` (`src/lib.rs:273`). -/
def Triangulation.origin (t : Triangulation) (halfedge_id : ℕ) : ℕ :=
  t.triangles.getD halfedge_id 0

/-- Embeds `Triangulation::set_origin` (`src/lib.rs:276`). -/
def Triangulation.set_origin (t : Triangulation) (halfedge_id point_id : ℕ) : Triangulation :=
  { t with triangles := t.triangles.setD halfedge_id point_id }

/-- Embeds `Triangulation::add_triangle` (`src/lib.rs:280`): push the three new
half-edges and back-patch the given twins; returns the new base index. -/
def Triangulation.add_triangle (t : Triangulation) (i0 i1 i2 a b c : ℕ) :
    Triangulation × ℕ :=
  let tbase := t.triangles.size
  let t := { t with triangles := ((t.triangles.push i0).push i1).push i2 }
  let t := { t with halfedges := ((t.halfedges.push a).push b).push c }
  let t := t.set_twin a tbase
  let t := t.set_twin b (tbase + 1)
  let t := t.set_twin c (tbase + 2)
  (t, tbase)

/-- Embeds `Triangulation::legalize` (`src/lib.rs:305`): the recursive Lawson
flip, with fuel bounding the recursion depth (exhaustion leaves the pair
unflipped, as if the edge were legal). -/
def Triangulation.legalize (fuel : ℕ) (t : Triangulation) (a : ℕ)
    (pts : List Point) (hull : Hull) : Triangulation × Hull × ℕ :=
  match fuel with
  | 0 => (t, hull, Triangulation.prev_halfedge a)
  | fuel + 1 =>
    let b := t.twin a
    let ar := Triangulation.prev_halfedge a
    if b = EMPTY then (t, hull, ar)
    else
      let al := Triangulation.next_halfedge a
      let bl := Triangulation.prev_halfedge b
      let p0 := t.origin ar
      let pr := t.origin a
      let pl := t.origin al
      let p1 := t.origin bl
      let illegal := (pts.getD p0 dP).in_circle (pts.getD pr dP) (pts.getD pl dP) (pts.getD p1 dP)
      if illegal then
        let t := t.set_origin a p1
        let t := t.set_origin b p0
        let hbl := t.twin bl
        let har := t.twin ar
        let hull := if hbl = EMPTY then hull.fix_halfedge bl a else hull
        let t := t.set_twin a hbl
        let t := t.set_twin b har
        let t := t.set_twin ar bl
        let t := t.set_twin hbl a
        let t := t.set_twin har b
        let t := t.set_twin bl ar
        let br := Triangulation.next_halfedge b
        let r1 := Triangulation.legalize fuel t a pts hull
        Triangulation.legalize fuel r1.1 br pts r1.2.1
      else (t, hull, ar)

/-- Stable insertion into a distance-sorted list: placed before the first
strictly greater key, after equal keys.  Models `sort_unstable_by` with
`partial_cmp` (which is the stable insertion sort for the small inputs
evaluated here; ties keep input order). -/
def insertSorted (x : ℕ × ℚ) : List (ℕ × ℚ) → List (ℕ × ℚ)
  | [] => [x]
  | y :: ys => if x.2 < y.2 then x :: y :: ys else y :: insertSorted x ys

/-- Sort the `(index, distance)` pairs by distance, stably. -/
def sortDists (l : List (ℕ × ℚ)) : List (ℕ × ℚ) :=
  l.foldl (fun acc x => insertSorted x acc) []

/-- The forward hull walk of the insertion loop (`src/lib.rs:185`):
keep adding fan triangles while the next hull edge is visible from `p`,
removing each consumed hull point. -/
def forwardWalk (pts : List Point) (p : Point) (i : ℕ) (lfuel : ℕ) :
    ℕ → Triangulation → Hull → ℕ → Triangulation × Hull × ℕ
  | 0, t, hull, n => (t, hull, n)
  | fuel + 1, t, hull, n =>
    let q := hull.nextOf n
    if !(p.orient (pts.getD n dP) (pts.getD q dP)) then (t, hull, n)
    else
      let tr := t.add_triangle n i q (hull.outOf i) EMPTY (hull.outOf n)
      let lr := Triangulation.legalize lfuel tr.1 (tr.2 + 2) pts hull
      let hull := lr.2.1.set_out i lr.2.2
      let hull := hull.remove n
      forwardWalk pts p i lfuel fuel lr.1 hull q

/-- The backward hull walk of the insertion loop (`src/lib.rs:199`). -/
def backwardWalk (pts : List Point) (p : Point) (i : ℕ) (lfuel : ℕ) :
    ℕ → Triangulation → Hull → ℕ → Triangulation × Hull × ℕ
  | 0, t, hull, e => (t, hull, e)
  | fuel + 1, t, hull, e =>
    let q := hull.prevOf e
    if !(p.orient (pts.getD q dP) (pts.getD e dP)) then (t, hull, e)
    else
      let tr := t.add_triangle q i e EMPTY (hull.outOf e) (hull.outOf q)
      let lr := Triangulation.legalize lfuel tr.1 (tr.2 + 2) pts hull
      let hull := lr.2.1.set_out q tr.2
      let hull := hull.remove e
      backwardWalk pts p i lfuel fuel lr.1 hull q

/-- One iteration body of the insertion loop (`src/lib.rs:170`–`223`),
after the duplicate and seed-point skips: find a visible edge, build the
triangle fan, legalize, and splice `p` into the hull. -/
def insertPoint (pts : List Point) (lfuel : ℕ) (st : Triangulation × Hull)
    (iu : ℕ) : Triangulation × Hull :=
  let t := st.1
  let hull := st.2
  let p := pts.getD iu dP
  let fv := hull.find_visible_edge p pts
  let e0 := fv.1
  let walk_back := fv.2
  if e0 = EMPTY then (t, hull)
  else
    let tr := t.add_triangle e0 iu (hull.nextOf e0) EMPTY EMPTY (hull.outOf e0)
    let lr := Triangulation.legalize lfuel tr.1 (tr.2 + 2) pts hull
    let hull := lr.2.1.set_out iu lr.2.2
    let hull := hull.set_out e0 tr.2
    let fw := forwardWalk pts p iu lfuel (pts.length + 1) lr.1 hull (hull.nextOf e0)
    let bw :=
      if walk_back then backwardWalk pts p iu lfuel (pts.length + 1) fw.1 fw.2.1 e0
      else (fw.1, fw.2.1, e0)
    let t := bw.1
    let hull := bw.2.1
    let e := bw.2.2
    let n := fw.2.2
    let hull := hull.set_prev iu e
    let hull := hull.set_next iu n
    let hull := hull.set_prev n iu
    let hull := hull.set_next e iu
    let hull := { hull with start := e }
    let hull := hull.hash_edge p iu
    let hull := hull.hash_edge (pts.getD e dP) e
    (t, hull)

/-- The insertion loop of `Triangulation::new` (`src/lib.rs:157`): walk the
distance-sorted points, skipping near-duplicates of the previous sorted
point and the three seed points. -/
def mainLoop (pts : List Point) (i0 i1 i2 : ℕ) (lfuel : ℕ) :
    List (ℕ × ℚ) → Option ℕ → Triangulation × Hull → Triangulation × Hull
  | [], _, st => st
  | (iu, _) :: rest, prv, st =>
    let skipDup :=
      match prv with
      | none => false
      | some j => (pts.getD iu dP).nearly_equals (pts.getD j dP)
    if skipDup then mainLoop pts i0 i1 i2 lfuel rest (some iu) st
    else if iu = i0 ∨ iu = i1 ∨ iu = i2 then
      mainLoop pts i0 i1 i2 lfuel rest (some iu) st
    else
      mainLoop pts i0 i1 i2 lfuel rest (some iu) (insertPoint pts lfuel st iu)

/-- The final hull read-off loop of `Triangulation::new`
(`src/lib.rs:226`). -/
def readHull (h : Hull) : ℕ → ℕ → List ℕ
  | 0, _ => []
  | fuel + 1, e =>
    e :: (if h.nextOf e = h.start then [] else readHull h fuel (h.nextOf e))

/-- Embeds `Triangulation::new` (`src/lib.rs:128`): `None` exactly when
`find_seed_triangle` fails; otherwise seed the mesh and hull, process the
points in ascending distance from the seed circumcenter, and read off the
hull. -/
def Triangulation.new (pts : List Point) : Option Triangulation :=
  match find_seed_triangle pts with
  | none => none
  | some (i0, i1, i2) =>
    let center :=
      ((pts.getD i0 dP).circumcenter (pts.getD i1 dP) (pts.getD i2 dP)).getD dP
    let t0 : Triangulation := { triangles := #[], halfedges := #[], hull := [] }
    let tr := t0.add_triangle i0 i1 i2 EMPTY EMPTY EMPTY
    let dists := sortDists (pts.enum.map fun ip => (ip.1, center.dist2 ip.2))
    let hull0 := Hull.new pts.length center i0 i1 i2 pts
    let lfuel := (pts.length + 2) * (pts.length + 2)
    let st := mainLoop pts i0 i1 i2 lfuel dists none (tr.1, hull0)
    let hullList := readHull st.2 (pts.length + 1) st.2.start
    some { st.1 with hull := hullList }

/-- Embeds `triangulate` (`src/lib.rs:569`): the public entry point
(`T = u32`). -/
def triangulate (pts : List Point) : Option Triangulation :=
  Triangulation.new pts

/-! ### Concrete data used by witnesses and counterexamples -/

/-- A concrete non-degenerate input: the standard right triangle. -/
def ptsTri : List Point := [⟨0, 0⟩, ⟨1, 0⟩, ⟨0, 1⟩]

/-- The hull state over `ptsTri` as a real run builds it:
`find_seed_triangle ptsTri = some (0, 2, 1)`, and these are exactly the
field values `Hull::new 3 (1/2, 1/2) 0 2 1 ptsTri` produces
(cycle `0 → 2 → 1 → 0`, `out = [0, 2, 1]`, hash table of size `⌊√3⌋ = 1`
last written with point `1`), spelled out literally so that the `ℕ`/array
parts reduce in the kernel. -/
def hullTri : Hull :=
  { prev := #[1, 2, 0]
    next := #[2, 0, 1]
    out := #[0, 2, 1]
    hash := #[1]
    start := 0
    center := ⟨1/2, 1/2⟩ }

/-- A concrete query point from which the hull edge `2 → 1` of `hullTri`
is visible. -/
def pQuery : Point := ⟨2, 2⟩

/-- Length of the hull cycle read from `start`. -/
def hullCycleLen (h : Hull) : ℕ := (readHull h (h.next.size + 1) h.start).length

/-- The claim's reading of the returned boolean of `find_visible_edge`:
"the walk wrapped fully around the hull", i.e. the walk took at least a
full cycle of forward steps. -/
def wrappedFully (h : Hull) (p : Point) (pts : List Point) : Prop :=
  hullCycleLen h ≤ h.fve_steps p pts

/-! ### Basic algebraic facts about the predicates -/

theorem Point.dist2_self (p : Point) : p.dist2 p = 0 := by
  simp [Point.dist2]

theorem Point.dist2_eq_zero_iff {p q : Point} : p.dist2 q = 0 ↔ p = q := by
  unfold Point.dist2
  constructor
  · intro h
    have hx : p.x - q.x = 0 := by nlinarith [sq_nonneg (p.x - q.x), sq_nonneg (p.y - q.y)]
    have hy : p.y - q.y = 0 := by nlinarith [sq_nonneg (p.x - q.x), sq_nonneg (p.y - q.y)]
    ext <;> linarith
  · intro h
    subst h
    ring

theorem Point.dist2_nonneg (p q : Point) : 0 ≤ p.dist2 q := by
  unfold Point.dist2
  nlinarith [mul_self_nonneg (p.x - q.x), mul_self_nonneg (p.y - q.y)]

/-- The denominator of `circumdelta` is exactly the signed-area cross
product of the triple. -/
theorem circumdelta_den (a b c : Point) :
    (b.x - a.x) * (c.y - a.y) - (b.y - a.y) * (c.x - a.x) = crossProduct a b c := by
  unfold crossProduct
  ring

theorem circumradius2_eq_none_iff {a b c : Point} :
    a.circumradius2 b c = none ↔ crossProduct a b c = 0 := by
  have hden := circumdelta_den a b c
  by_cases hc : crossProduct a b c = 0 <;>
    simp [Point.circumradius2, Point.circumdelta, hden, hc]

/-- Expansion of a cross product around a fourth base point. -/
theorem crossProduct_expand (o p q r : Point) :
    crossProduct p q r =
      crossProduct o q r - crossProduct o p r + crossProduct o p q := by
  unfold crossProduct
  ring

/-- If `x` and `y` are both on the line through distinct `a` and `b`, the
triple `(a, x, y)` is collinear. -/
theorem crossProduct_zero_trans {a b x y : Point} (hab : a ≠ b)
    (hx : crossProduct a b x = 0) (hy : crossProduct a b y = 0) :
    crossProduct a x y = 0 := by
  have hdx : (b.x - a.x) * crossProduct a x y =
      (x.x - a.x) * crossProduct a b y - (y.x - a.x) * crossProduct a b x := by
    unfold crossProduct
    ring
  have hdy : (b.y - a.y) * crossProduct a x y =
      (x.y - a.y) * crossProduct a b y - (y.y - a.y) * crossProduct a b x := by
    unfold crossProduct
    ring
  rw [hx, hy] at hdx hdy
  simp only [mul_zero, sub_zero] at hdx hdy
  rcases mul_eq_zero.mp hdx with h1 | h1
  · rcases mul_eq_zero.mp hdy with h2 | h2
    · exact absurd (Point.ext (by linarith) (by linarith)) hab
    · exact h2
  · exact h1

/-! ### C7: `orient` decides clockwise turn via the signed-area sign -/

/-- C7: for all points `p, q, r`, `orient p q r` is true iff the sequence
`p → q → r` turns clockwise, as decided by the sign of the signed-area
cross product `(q - p) × (r - p)` (positive = clockwise in the library's
screen-coordinate convention with the y axis pointing down). -/
theorem orient_true_iff_clockwise (p q r : Point) :
    p.orient q r = true ↔ 0 < crossProduct p q r := by
  have key : (q.y - p.y) * (r.x - q.x) - (q.x - p.x) * (r.y - q.y) =
      -crossProduct p q r := by
    unfold crossProduct
    ring
  simp only [Point.orient, decide_eq_true_eq, key]
  constructor <;> intro h <;> linarith

/-! ### C9: `next_halfedge` / `prev_halfedge` are modular arithmetic -/

/-- C9: for every representable half-edge index `i` (i.e. below the
reserved `EMPTY = u32::MAX` sentinel), `next_halfedge` and `prev_halfedge`
stay inside the same 3-slot triangle window (same quotient by 3) and are
mutual inverses. -/
theorem next_prev_halfedge_modular (i : ℕ) (h : i < EMPTY) :
    Triangulation.next_halfedge i / 3 = i / 3 ∧
    Triangulation.prev_halfedge i / 3 = i / 3 ∧
    Triangulation.prev_halfedge (Triangulation.next_halfedge i) = i ∧
    Triangulation.next_halfedge (Triangulation.prev_halfedge i) = i := by
  have hb : i < 4294967295 := by simpa [EMPTY] using h
  have unfoldN : ∀ j : ℕ, j < 4294967295 →
      Triangulation.next_halfedge j = if j % 3 = 2 then j - 2 else j + 1 := by
    intro j hj
    simp only [Triangulation.next_halfedge, U32MOD]
    split_ifs
    · rfl
    · exact Nat.mod_eq_of_lt (by omega)
  have unfoldP : ∀ j : ℕ, j < 4294967295 →
      Triangulation.prev_halfedge j = if j % 3 = 0 then j + 2 else j - 1 := by
    intro j hj
    simp only [Triangulation.prev_halfedge, U32MOD]
    split_ifs with h0
    · exact Nat.mod_eq_of_lt (by omega)
    · rfl
  have hn : Triangulation.next_halfedge i < 4294967295 := by
    rw [unfoldN i hb]
    split_ifs <;> omega
  have hp : Triangulation.prev_halfedge i < 4294967295 := by
    rw [unfoldP i hb]
    split_ifs with h0 <;> omega
  refine ⟨?_, ?_, ?_, ?_⟩
  · rw [unfoldN i hb]
    split_ifs <;> omega
  · rw [unfoldP i hb]
    split_ifs <;> omega
  · rw [unfoldP _ hn, unfoldN i hb]
    rw [unfoldN i hb] at hn
    split_ifs at * <;> omega
  · rw [unfoldN _ hp, unfoldP i hb]
    rw [unfoldP i hb] at hp
    split_ifs at * <;> omega

/-- Witness for C9 at the concrete index 5. -/
theorem next_prev_halfedge_modular_witness :
    Triangulation.next_halfedge 5 / 3 = 5 / 3 ∧
    Triangulation.prev_halfedge 5 / 3 = 5 / 3 ∧
    Triangulation.prev_halfedge (Triangulation.next_halfedge 5) = 5 ∧
    Triangulation.next_halfedge (Triangulation.prev_halfedge 5) = 5 :=
  next_prev_halfedge_modular 5 (by decide)

/-! ### The `find_closest_point` loop -/

theorem fcpLoop_some_stays (p0 : Point) :
    ∀ (l : List (ℕ × Point)) (k : ℕ) (d : ℚ),
      ∃ k' d', fcpLoop p0 l k (some d) = (k', some d') := by
  intro l
  induction l with
  | nil => intro k d; exact ⟨k, d, rfl⟩
  | cons ip rest ih =>
    intro k d
    obtain ⟨i, p⟩ := ip
    simp only [fcpLoop]
    split
    · exact ih i (p0.dist2 p)
    · exact ih k d

theorem fcpLoop_eq_some (p0 : Point) :
    ∀ (l : List (ℕ × Point)) (k : ℕ) (m : Option ℚ) (k' : ℕ) (d' : ℚ),
      fcpLoop p0 l k m = (k', some d') →
      (k' = k ∧ m = some d') ∨ ∃ p, (k', p) ∈ l ∧ 0 < p0.dist2 p := by
  intro l
  induction l with
  | nil =>
    intro k m k' d' hres
    simp only [fcpLoop] at hres
    exact Or.inl ⟨(Prod.mk.injEq .. ▸ hres).1.symm ▸ rfl, (Prod.mk.injEq .. ▸ hres).2⟩
  | cons ip rest ih =>
    intro k m k' d' hres
    obtain ⟨i, p⟩ := ip
    simp only [fcpLoop] at hres
    split at hres
    · rename_i hcond
      simp only [Bool.and_eq_true, decide_eq_true_eq] at hcond
      rcases ih i (some (p0.dist2 p)) k' d' hres with ⟨hk, _⟩ | ⟨q, hq, hdq⟩
      · exact Or.inr ⟨p, by simp [hk], hcond.1⟩
      · exact Or.inr ⟨q, List.mem_cons_of_mem _ hq, hdq⟩
    · rcases ih k m k' d' hres with h | ⟨q, hq, hdq⟩
      · exact Or.inl h
      · exact Or.inr ⟨q, List.mem_cons_of_mem _ hq, hdq⟩

theorem fcpLoop_none (p0 : Point) :
    ∀ (l : List (ℕ × Point)) (k k' : ℕ),
      fcpLoop p0 l k none = (k', none) →
      ∀ ip ∈ l, ¬ (0 < p0.dist2 ip.2) := by
  intro l
  induction l with
  | nil => intro k k' _ ip hip; simp at hip
  | cons ip0 rest ih =>
    intro k k' hres ip hip
    obtain ⟨i, p⟩ := ip0
    simp only [fcpLoop, minLtB] at hres
    split at hres
    · rename_i hcond
      obtain ⟨k2, d2, h2⟩ := fcpLoop_some_stays p0 rest i (p0.dist2 p)
      rw [h2] at hres
      simp at hres
    · rename_i hcond
      simp only [Bool.and_eq_true, decide_eq_true_eq, and_true] at hcond
      rcases List.mem_cons.mp hip with heq | hmem
      · subst heq
        simpa using hcond
      · exact ih k k' hres ip hmem

/-- The index returned by `find_closest_point` is in bounds and names a
point at strictly positive squared distance from `p0`. -/
theorem find_closest_point_some {pts : List Point} {p0 : Point} {k : ℕ}
    (h : find_closest_point pts p0 = some k) :
    k < pts.length ∧ 0 < p0.dist2 (pts.getD k dP) := by
  unfold find_closest_point at h
  rcases hres : fcpLoop p0 pts.enum 0 none with ⟨k1, m1⟩
  rw [hres] at h
  cases m1 with
  | none => simp at h
  | some d1 =>
    have hk : k1 = k := by simpa using h
    subst hk
    rcases fcpLoop_eq_some p0 pts.enum 0 none k1 d1 hres with ⟨_, hm⟩ | ⟨p, hp, hd⟩
    · simp at hm
    · have hget := List.mk_mem_enum_iff_getElem?.mp hp
      obtain ⟨hlt, hgetel⟩ := List.getElem?_eq_some.mp hget
      refine ⟨hlt, ?_⟩
      rw [List.getD_eq_getElem?_getD, hget]
      simpa [hgetel] using hd

/-- When `find_closest_point` fails, every point coincides with `p0`. -/
theorem find_closest_point_none {pts : List Point} {p0 : Point}
    (h : find_closest_point pts p0 = none) :
    ∀ p ∈ pts, p = p0 := by
  intro p hp
  unfold find_closest_point at h
  rcases hres : fcpLoop p0 pts.enum 0 none with ⟨k1, m1⟩
  rw [hres] at h
  cases m1 with
  | some d1 => simp at h
  | none =>
    obtain ⟨i, hlt, hgetel⟩ := List.mem_iff_getElem.mp hp
    have hmem : (i, p) ∈ pts.enum :=
      List.mk_mem_enum_iff_getElem?.mpr (by simp [hgetel, List.getElem?_eq_some, hlt])
    have hnpos := fcpLoop_none p0 pts.enum 0 k1 hres (i, p) hmem
    have h0 : p0.dist2 p = 0 := le_antisymm (by simpa using hnpos) (Point.dist2_nonneg p0 p)
    exact (Point.dist2_eq_zero_iff.mp h0).symm

/-! ### The seed-triangle circumradius loop -/

theorem seedLoop_some_stays (p0 p1 : Point) (i0 i1 : ℕ) :
    ∀ (l : List (ℕ × Point)) (i2 : ℕ) (r : ℚ),
      ∃ k' r', seedLoop p0 p1 i0 i1 l i2 (some r) = (k', some r') := by
  intro l
  induction l with
  | nil => intro i2 r; exact ⟨i2, r, rfl⟩
  | cons ip rest ih =>
    intro i2 r
    obtain ⟨i, p⟩ := ip
    simp only [seedLoop]
    split
    · exact ih i2 r
    · split
      · exact ih i2 r
      · split
        · rename_i r2 _ _
          exact ih i r2
        · exact ih i2 r

theorem seedLoop_eq_some (p0 p1 : Point) (i0 i1 : ℕ) :
    ∀ (l : List (ℕ × Point)) (i2 : ℕ) (m : Option ℚ) (k' : ℕ) (r' : ℚ),
      seedLoop p0 p1 i0 i1 l i2 m = (k', some r') →
      (k' = i2 ∧ m = some r') ∨ ∃ p, (k', p) ∈ l ∧ k' ≠ i0 ∧ k' ≠ i1 := by
  intro l
  induction l with
  | nil =>
    intro i2 m k' r' hres
    simp only [seedLoop] at hres
    exact Or.inl ⟨(Prod.mk.injEq .. ▸ hres).1.symm ▸ rfl, (Prod.mk.injEq .. ▸ hres).2⟩
  | cons ip rest ih =>
    intro i2 m k' r' hres
    obtain ⟨i, p⟩ := ip
    simp only [seedLoop] at hres
    split at hres
    · rcases ih i2 m k' r' hres with h | ⟨q, hq, hni⟩
      · exact Or.inl h
      · exact Or.inr ⟨q, List.mem_cons_of_mem _ hq, hni⟩
    · rename_i hskip
      push_neg at hskip
      split at hres
      · rcases ih i2 m k' r' hres with h | ⟨q, hq, hni⟩
        · exact Or.inl h
        · exact Or.inr ⟨q, List.mem_cons_of_mem _ hq, hni⟩
      · rename_i r hr
        split at hres
        · rcases ih i (some r) k' r' hres with ⟨hk, _⟩ | ⟨q, hq, hni⟩
          · refine Or.inr ⟨p, by simp [hk], ?_, ?_⟩
            · rw [hk]; exact hskip.1
            · rw [hk]; exact hskip.2
          · exact Or.inr ⟨q, List.mem_cons_of_mem _ hq, hni⟩
        · rcases ih i2 m k' r' hres with h | ⟨q, hq, hni⟩
          · exact Or.inl h
          · exact Or.inr ⟨q, List.mem_cons_of_mem _ hq, hni⟩

theorem seedLoop_none (p0 p1 : Point) (i0 i1 : ℕ) :
    ∀ (l : List (ℕ × Point)) (i2 k' : ℕ),
      seedLoop p0 p1 i0 i1 l i2 none = (k', none) →
      ∀ ip ∈ l, ip.1 = i0 ∨ ip.1 = i1 ∨ p0.circumradius2 p1 ip.2 = none := by
  intro l
  induction l with
  | nil => intro i2 k' _ ip hip; simp at hip
  | cons ip0 rest ih =>
    intro i2 k' hres ip hip
    obtain ⟨i, p⟩ := ip0
    simp only [seedLoop] at hres
    rcases List.mem_cons.mp hip with heq | hmem
    · subst heq
      split at hres
      · rename_i hsk
        exact Or.imp id Or.inl hsk
      · split at hres
        · rename_i hrad
          exact Or.inr (Or.inr hrad)
        · rename_i r hrad
          split at hres
          · obtain ⟨k2, r2, h2⟩ := seedLoop_some_stays p0 p1 i0 i1 rest i r
            rw [h2] at hres
            simp at hres
          · rename_i hlt
            simp [minLtB] at hlt
    · split at hres
      · exact ih i2 k' hres ip hmem
      · split at hres
        · exact ih i2 k' hres ip hmem
        · rename_i r hrad
          split at hres
          · obtain ⟨k2, r2, h2⟩ := seedLoop_some_stays p0 p1 i0 i1 rest i r
            rw [h2] at hres
            simp at hres
          · rename_i hlt
            simp [minLtB] at hlt

theorem enum_mem_getD {pts : List Point} {i : ℕ} {p : Point}
    (h : (i, p) ∈ pts.enum) : i < pts.length ∧ pts.getD i dP = p := by
  have hget := List.mk_mem_enum_iff_getElem?.mp h
  obtain ⟨hlt, hel⟩ := List.getElem?_eq_some.mp hget
  refine ⟨hlt, ?_⟩
  rw [List.getD_eq_getElem?_getD, hget]
  rfl

theorem mem_enum_of_mem {pts : List Point} {p : Point} (h : p ∈ pts) :
    ∃ i, (i, p) ∈ pts.enum := by
  obtain ⟨i, hlt, hel⟩ := List.mem_iff_getElem.mp h
  exact ⟨i, List.mk_mem_enum_iff_getElem?.mpr (by simp [hel, List.getElem?_eq_some, hlt])⟩

theorem getD_mem_of_lt {pts : List Point} {i : ℕ} (h : i < pts.length) :
    pts.getD i dP ∈ pts := by
  have he : pts.getD i dP = pts[i] := by
    simp [List.getD_eq_getElem?_getD, List.getElem?_eq_getElem h]
  rw [he]
  exact List.getElem_mem h

theorem seedLoop_none_of_all (p0 p1 : Point) (i0 i1 : ℕ) :
    ∀ (l : List (ℕ × Point)) (i2 : ℕ),
      (∀ ip ∈ l, ip.1 = i0 ∨ ip.1 = i1 ∨ p0.circumradius2 p1 ip.2 = none) →
      seedLoop p0 p1 i0 i1 l i2 none = (i2, none) := by
  intro l
  induction l with
  | nil => intro i2 _; rfl
  | cons ip0 rest ih =>
    intro i2 hall
    obtain ⟨i, p⟩ := ip0
    have hhd := hall (i, p) (List.mem_cons_self _ _)
    have htl : ∀ ip ∈ rest, ip.1 = i0 ∨ ip.1 = i1 ∨ p0.circumradius2 p1 ip.2 = none :=
      fun ip hip => hall ip (List.mem_cons_of_mem _ hip)
    simp only [seedLoop]
    split
    · exact ih i2 htl
    · rename_i hsk
      push_neg at hsk
      rcases hhd with h | h | h
      · exact absurd h hsk.1
      · exact absurd h hsk.2
      · rw [h]
        exact ih i2 htl

/-! ### C10: the seed triple is pairwise distinct and in bounds -/

/-- C10: whenever `find_seed_triangle` returns `some (a, b, c)`, the three
indices are pairwise distinct and each is a valid index into the input
point list. -/
theorem find_seed_triangle_distinct_valid {pts : List Point} {a b c : ℕ}
    (h : find_seed_triangle pts = some (a, b, c)) :
    a ≠ b ∧ a ≠ c ∧ b ≠ c ∧
    a < pts.length ∧ b < pts.length ∧ c < pts.length := by
  simp only [find_seed_triangle] at h
  rcases h0 : find_closest_point pts (calc_bbox_center pts) with _ | i0
  · rw [h0] at h
    simp at h
  simp only [h0] at h
  rcases h1 : find_closest_point pts (pts.getD i0 dP) with _ | i1
  · rw [h1] at h
    simp at h
  simp only [h1] at h
  rcases h2 : seedLoop (pts.getD i0 dP) (pts.getD i1 dP) i0 i1 pts.enum 0 none
    with ⟨i2v, m2⟩
  simp only [h2] at h
  cases m2 with
  | none => simp at h
  | some r =>
    obtain ⟨hi0lt, _⟩ := find_closest_point_some h0
    obtain ⟨hi1lt, hi1pos⟩ := find_closest_point_some h1
    have hi10 : i1 ≠ i0 := by
      intro hcontra
      rw [hcontra, Point.dist2_self] at hi1pos
      exact lt_irrefl 0 hi1pos
    rcases seedLoop_eq_some _ _ i0 i1 pts.enum 0 none i2v r h2 with ⟨_, hm⟩ | ⟨p, hp, hni0, hni1⟩
    · simp at hm
    · have hi2lt : i2v < pts.length := (enum_mem_getD hp).1
      replace h : (if (pts.getD i0 dP).orient (pts.getD i1 dP) (pts.getD i2v dP) = true
          then some (i0, i2v, i1) else some (i0, i1, i2v)) = some (a, b, c) := h
      split at h
      · simp only [Option.some.injEq, Prod.mk.injEq] at h
        obtain ⟨ha, hb, hc⟩ := h
        subst ha
        subst hb
        subst hc
        exact ⟨Ne.symm hni0, Ne.symm hi10, hni1, hi0lt, hi2lt, hi1lt⟩
      · simp only [Option.some.injEq, Prod.mk.injEq] at h
        obtain ⟨ha, hb, hc⟩ := h
        subst ha
        subst hb
        subst hc
        exact ⟨Ne.symm hi10, Ne.symm hni0, Ne.symm hni1, hi0lt, hi1lt, hi2lt⟩

/-- Witness for C10: on the concrete triangle `ptsTri` the seed search
returns `(0, 2, 1)` (swapped for winding). -/
theorem find_seed_triangle_distinct_valid_witness :
    (0 : ℕ) ≠ 2 ∧ (0 : ℕ) ≠ 1 ∧ (2 : ℕ) ≠ 1 ∧
    0 < ptsTri.length ∧ 2 < ptsTri.length ∧ 1 < ptsTri.length :=
  find_seed_triangle_distinct_valid
    (show find_seed_triangle ptsTri = some (0, 2, 1) by
      norm_num [find_seed_triangle, calc_bbox_center, find_closest_point, fcpLoop,
        seedLoop, minLtB, Point.dist2, Point.orient, Point.circumdelta,
        Point.circumradius2, foldMin, foldMax, ptsTri, dP, List.enum, List.enumFrom])

/-! ### C2: `triangulate` fails exactly on degenerate input -/

theorem triangulate_none_iff_seed {pts : List Point} :
    triangulate pts = none ↔ find_seed_triangle pts = none := by
  unfold triangulate Triangulation.new
  rcases h : find_seed_triangle pts with _ | ⟨i0, i1, i2⟩ <;> simp

theorem crossProduct_self (p q : Point) : crossProduct p q q = 0 ∧
    crossProduct p p q = 0 ∧ crossProduct p q p = 0 := by
  unfold crossProduct
  refine ⟨by ring, by ring, by ring⟩

theorem find_seed_none_iff_collinear {pts : List Point} :
    find_seed_triangle pts = none ↔ AllCollinear pts := by
  constructor
  · intro h
    simp only [find_seed_triangle] at h
    rcases h0 : find_closest_point pts (calc_bbox_center pts) with _ | i0
    · -- every point is the bbox center: all coincident, hence collinear
      intro p hp q hq r hr
      have hpc := find_closest_point_none h0 p hp
      have hqc := find_closest_point_none h0 q hq
      have hrc := find_closest_point_none h0 r hr
      rw [hpc, hqc, hrc]
      unfold crossProduct
      ring
    simp only [h0] at h
    rcases h1 : find_closest_point pts (pts.getD i0 dP) with _ | i1
    · intro p hp q hq r hr
      have hpc := find_closest_point_none h1 p hp
      have hqc := find_closest_point_none h1 q hq
      have hrc := find_closest_point_none h1 r hr
      rw [hpc, hqc, hrc]
      unfold crossProduct
      ring
    simp only [h1] at h
    rcases h2 : seedLoop (pts.getD i0 dP) (pts.getD i1 dP) i0 i1 pts.enum 0 none
      with ⟨i2v, m2⟩
    simp only [h2] at h
    cases m2 with
    | some r =>
      replace h : (if (pts.getD i0 dP).orient (pts.getD i1 dP) (pts.getD i2v dP) = true
          then some (i0, i2v, i1) else some (i0, i1, i2v)) = none := h
      split at h <;> simp at h
    | none =>
      obtain ⟨hi0lt, _⟩ := find_closest_point_some h0
      obtain ⟨hi1lt, hi1pos⟩ := find_closest_point_some h1
      have hall := seedLoop_none _ _ i0 i1 pts.enum 0 i2v h2
      -- every input point is on the line through the two seed points
      have honline : ∀ p ∈ pts, crossProduct (pts.getD i0 dP) (pts.getD i1 dP) p = 0 := by
        intro p hp
        obtain ⟨i, hi⟩ := mem_enum_of_mem hp
        obtain ⟨hilt, higetD⟩ := enum_mem_getD hi
        rcases hall (i, p) hi with hii0 | hii1 | hrad
        · have hi' : i = i0 := hii0
          rw [← higetD, hi']
          exact (crossProduct_self _ _).2.2
        · have hi' : i = i1 := hii1
          rw [← higetD, hi']
          exact (crossProduct_self _ _).1
        · exact circumradius2_eq_none_iff.mp hrad
      have hne : pts.getD i0 dP ≠ pts.getD i1 dP := by
        intro hcontra
        rw [← hcontra, Point.dist2_self] at hi1pos
        exact lt_irrefl 0 hi1pos
      intro p hp q hq r hr
      rw [crossProduct_expand (pts.getD i0 dP) p q r]
      rw [crossProduct_zero_trans hne (honline q hq) (honline r hr),
        crossProduct_zero_trans hne (honline p hp) (honline r hr),
        crossProduct_zero_trans hne (honline p hp) (honline q hq)]
      ring
  · intro hall
    simp only [find_seed_triangle]
    rcases h0 : find_closest_point pts (calc_bbox_center pts) with _ | i0
    · simp [h0]
    simp only [h0]
    rcases h1 : find_closest_point pts (pts.getD i0 dP) with _ | i1
    · simp [h1]
    simp only [h1]
    obtain ⟨hi0lt, _⟩ := find_closest_point_some h0
    obtain ⟨hi1lt, _⟩ := find_closest_point_some h1
    have hp0 : pts.getD i0 dP ∈ pts := getD_mem_of_lt hi0lt
    have hp1 : pts.getD i1 dP ∈ pts := getD_mem_of_lt hi1lt
    have hnone := seedLoop_none_of_all (pts.getD i0 dP) (pts.getD i1 dP) i0 i1
      pts.enum 0 ?_
    · simp only [hnone]
    · intro ip hip
      obtain ⟨hilt, higetD⟩ := enum_mem_getD (by exact hip)
      refine Or.inr (Or.inr (circumradius2_eq_none_iff.mpr ?_))
      have hpmem : ip.2 ∈ pts := by
        rw [← higetD]
        exact getD_mem_of_lt hilt
      exact hall _ hp0 _ hp1 _ hpmem

/-! ### C8: the `find_visible_edge` walk and its returned flag -/

theorem visWalk_steps_ge (pts : List Point) (h : Hull) (p : Point) (start : ℕ) :
    ∀ (fuel e s : ℕ), s ≤ (visWalk pts h p start fuel e s).2.2 := by
  intro fuel
  induction fuel with
  | zero => intro e s; simp [visWalk]
  | succ fuel ih =>
    intro e s
    simp only [visWalk]
    split
    · simp
    · split
      · simp
      · exact le_trans (Nat.le_succ s) (ih _ (s + 1))

theorem visWalk_flag_of_ne (pts : List Point) (h : Hull) (p : Point) (start : ℕ) :
    ∀ (fuel e s : ℕ), e ≠ start → (visWalk pts h p start fuel e s).2.1 = false := by
  intro fuel
  induction fuel with
  | zero => intro e s _; simp [visWalk]
  | succ fuel ih =>
    intro e s hne
    simp only [visWalk]
    split
    · simp [hne]
    · split
      · simp
      · rename_i hnstart
        exact ih _ (s + 1) hnstart

theorem visWalk_visible (pts : List Point) (h : Hull) (p : Point) (start : ℕ) :
    ∀ (fuel e s : ℕ), (visWalk pts h p start fuel e s).1 ≠ EMPTY →
      p.orient (pts.getD (visWalk pts h p start fuel e s).1 dP)
        (pts.getD (h.nextOf (visWalk pts h p start fuel e s).1) dP) = true := by
  intro fuel
  induction fuel with
  | zero => intro e s hne; simp [visWalk] at hne
  | succ fuel ih =>
    intro e s hne
    simp only [visWalk] at hne ⊢
    split
    · rename_i hvis
      simpa using hvis
    · rename_i hvis
      split
      · rename_i hst
        rw [if_neg hvis, if_pos hst] at hne
        simp [EMPTY] at hne
      · rename_i hst
        rw [if_neg hvis, if_neg hst] at hne
        exact ih _ (s + 1) hne

/-- The flag of a walk started at `start` is true exactly when the walk
found the visible edge at its very first position (zero steps). -/
theorem visWalk_start_iff (pts : List Point) (h : Hull) (p : Point) (start : ℕ)
    (fuel s0 : ℕ)
    (hne : (visWalk pts h p start (fuel + 1) start s0).1 ≠ EMPTY) :
    ((visWalk pts h p start (fuel + 1) start s0).2.1 = true ↔
      (visWalk pts h p start (fuel + 1) start s0).2.2 = s0) := by
  simp only [visWalk] at hne ⊢
  split
  · simp
  · rename_i hvis
    split
    · rename_i hst
      rw [if_neg hvis, if_pos hst] at hne
      simp [EMPTY] at hne
    · rename_i hst
      rw [if_neg hvis, if_neg hst] at hne
      rw [visWalk_flag_of_ne pts h p start fuel _ (s0 + 1) hst]
      have hge := visWalk_steps_ge pts h p start fuel (h.nextOf start) (s0 + 1)
      constructor
      · intro hfalse
        simp at hfalse
      · intro hsteps
        omega

/-- C8 (amended): when `find_visible_edge` does not return the `EMPTY`
sentinel, the returned point id heads an edge visible from `p`, and the
returned boolean is true exactly when that edge was found immediately at
the walk's starting position — the walk took zero forward steps (a walk
that wraps fully around the hull returns `EMPTY` instead). -/
theorem find_visible_edge_spec (h : Hull) (p : Point) (pts : List Point)
    (hne : (h.find_visible_edge p pts).1 ≠ EMPTY) :
    ((h.find_visible_edge p pts).2 = true ↔ h.fve_steps p pts = 0)
    ∧ p.orient (pts.getD (h.find_visible_edge p pts).1 dP)
        (pts.getD (h.nextOf (h.find_visible_edge p pts).1) dP) = true := by
  simp only [Hull.find_visible_edge, Hull.fve_steps, Hull.find_visible_edge_core] at *
  exact ⟨visWalk_start_iff pts h p _ h.next.size 0 hne, visWalk_visible pts h p _ _ _ 0 hne⟩

/-- Evaluation of the walk on the concrete seed hull `hullTri` and query
`pQuery`: the very first probed edge (`2 → 1`) is visible, so the walk
returns it with the flag set and zero steps taken. -/
theorem hullTri_core_eval :
    hullTri.find_visible_edge_core pQuery ptsTri = (2, true, 0) := by
  have hstart : hullTri.prevOf (probeLoop hullTri (hullTri.hash_key pQuery)
      hullTri.hash.size (List.range hullTri.hash.size) 0) = 2 := by
    have hsz : hullTri.hash.size = 1 := rfl
    rw [hsz]
    have hrange : List.range 1 = [0] := rfl
    rw [hrange]
    simp only [probeLoop, Nat.add_zero, Nat.mod_one]
    norm_num [hullTri, Hull.nextOf, Hull.prevOf, EMPTY]
  simp only [Hull.find_visible_edge_core]
  rw [hstart]
  have horient : pQuery.orient (ptsTri.getD 2 dP) (ptsTri.getD (hullTri.nextOf 2) dP)
      = true := by
    norm_num [Point.orient, ptsTri, pQuery, dP, Hull.nextOf, hullTri]
  simp only [visWalk, horient, if_true]
  simp

/-- C8 counterexample: on the concrete hull state `hullTri` and query
point `pQuery` the returned boolean is `true` although the walk took zero
forward steps, i.e. it did not wrap (fully or at all) around the 3-point
hull — refuting "the boolean is true exactly when the walk wrapped fully
around the hull". -/
theorem find_visible_edge_wrapflag_counterexample :
    (hullTri.find_visible_edge pQuery ptsTri).2 = true ∧
    hullTri.fve_steps pQuery ptsTri = 0 ∧
    hullCycleLen hullTri = 3 ∧
    ¬ ((hullTri.find_visible_edge pQuery ptsTri).2 = true ↔
        wrappedFully hullTri pQuery ptsTri) := by
  have hb : (hullTri.find_visible_edge pQuery ptsTri).2 = true := by
    simp [Hull.find_visible_edge, hullTri_core_eval]
  have hs : hullTri.fve_steps pQuery ptsTri = 0 := by
    simp [Hull.fve_steps, hullTri_core_eval]
  have hlen : hullCycleLen hullTri = 3 := rfl
  refine ⟨hb, hs, hlen, fun hiff => ?_⟩
  have hw := hiff.mp hb
  unfold wrappedFully at hw
  rw [hs, hlen] at hw
  omega

/-- Witness for the amended C8 theorem at the concrete hull state
`hullTri` and query point `pQuery`. -/
theorem find_visible_edge_spec_witness :
    ((hullTri.find_visible_edge pQuery ptsTri).2 = true ↔
      hullTri.fve_steps pQuery ptsTri = 0)
    ∧ pQuery.orient (ptsTri.getD (hullTri.find_visible_edge pQuery ptsTri).1 dP)
        (ptsTri.getD (hullTri.nextOf (hullTri.find_visible_edge pQuery ptsTri).1) dP)
        = true :=
  find_visible_edge_spec hullTri pQuery ptsTri
    (by simp [Hull.find_visible_edge, hullTri_core_eval, EMPTY])

/-- C2: `triangulate` returns `None` (a regular value, no partial result)
exactly when no valid seed triangle exists: the input is empty, all points
are coincident, or all points are collinear — the cases where the minimum
circumradius search never improves from `+∞`. -/
theorem triangulate_none_iff_degenerate (pts : List Point) :
    triangulate pts = none ↔
      (pts = [] ∨ AllCoincident pts ∨ AllCollinear pts) := by
  rw [triangulate_none_iff_seed, find_seed_none_iff_collinear]
  constructor
  · exact fun h => Or.inr (Or.inr h)
  · rintro (h | h | h)
    · subst h
      intro p hp
      simp at hp
    · intro p hp q hq r hr
      rw [← h p hp q hq, ← h p hp r hr]
      unfold crossProduct
      ring
    · exact h

end Delaunator
